import Mathlib

/-!
# Scheduling & Streak Engine — verification development

Shallow embedding of the habit-tracking engine of this repository
(`src/App.tsx` and `src/components/AddHabitModal.tsx`).

Modelling conventions:
* A JavaScript `Date` is its millisecond timestamp (`Int`, milliseconds
  since the Unix epoch).  The model fixes the local time zone to UTC with
  no DST, so `setHours(0,0,0,0)` is flooring to a multiple of 86400000 ms
  and `setDate(d ± 1)` on a midnight timestamp is `± 86400000`.
* A JS `Record<string, boolean | null>` is an association list
  `List (String × Option Bool)` with distinct keys; the stored value
  `some true` is JS `true`, `some false` is JS `false`, `none` is JS
  `null`; an absent key is JS `undefined`.
* All date arithmetic of the source (`Math.floor`, `%` on non-negative
  dividends with positive divisors) is `Int` division/mod, which in Lean
  is Euclidean and agrees with floor division for positive divisors.
-/

namespace Mastery

/-- Milliseconds per day, the source's `1000 * 60 * 60 * 24`. -/
def msPerDay : Int := 86400000

/-- Civil (proleptic Gregorian, UTC) date of a day number (days since
1970-01-01).  Models the `getFullYear`/`getMonth`/`getDate` field
extraction a JS `Date` performs; returns (year, month 1..12, day 1..31). -/
def civilFromDays (z0 : Int) : Int × Int × Int :=
  let z := z0 + 719468
  let era := z / 146097
  let doe := z - era * 146097
  let yoe := (doe - doe / 1460 + doe / 36524 - doe / 146096) / 365
  let y := yoe + era * 400
  let doy := doe - (365 * yoe + yoe / 4 - yoe / 100)
  let mp := (5 * doy + 2) / 153
  let d := doy - (153 * mp + 2) / 5 + 1
  let m := mp + (if mp < 10 then 3 else -9)
  (y + (if m ≤ 2 then 1 else 0), m, d)

/-- Zero-padding to two digits, the source's `padStart(2, '0')`. -/
def pad2 (n : Int) : String :=
  if n < 10 then "0" ++ toString n else toString n

/-- `formatDate(date, 'yyyy-MM-dd')` of `App.tsx` (and the identical
`formatDateString` local to `calculateHabitStats` in
`AddHabitModal.tsx`): the canonical completion-map key of a date. -/
def formatDateYMD (t : Int) : String :=
  let c := civilFromDays (t / msPerDay)
  toString c.1 ++ "-" ++ pad2 c.2.1 ++ "-" ++ pad2 c.2.2

/-- `date.toLocaleString('en-US', { weekday: 'short' })`: the short
English weekday name.  Day 0 (1970-01-01) was a Thursday. -/
def weekdayShort (t : Int) : String :=
  match ((t / msPerDay + 4) % 7).toNat with
  | 0 => "Sun"
  | 1 => "Mon"
  | 2 => "Tue"
  | 3 => "Wed"
  | 4 => "Thu"
  | 5 => "Fri"
  | _ => "Sat"

/-- `d.setHours(0, 0, 0, 0)`: normalize a timestamp to local midnight. -/
def midnightOf (t : Int) : Int := msPerDay * (t / msPerDay)

/-- `getDaysDifference` of `App.tsx`:
`Math.floor(Math.abs(date2.getTime() - date1.getTime()) / 86400000)`. -/
def getDaysDifference (date1 date2 : Int) : Nat :=
  (date2 - date1).natAbs / 86400000

/-- The `Habit` record of `App.tsx`. -/
structure Habit where
  id : Int
  name : String
  description : String
  color : String
  type : String
  categories : List (String × String)
  frequencyType : String
  selectedDays : List String
  timesPerPeriod : Int
  periodUnit : String
  repeatDays : Int
  completed : List (String × Option Bool)
  order : Int
deriving DecidableEq

/-- JS property read `m[key]` on a record: `some v` when the key is
present with value `v`, `none` when absent (`undefined`). -/
def jsGet (m : List (String × Option Bool)) (key : String) :
    Option (Option Bool) :=
  (m.find? (fun p => p.1 == key)).map Prod.snd

/-- JS truthiness of a `boolean | null | undefined` read: only `true`
is truthy. -/
def jsTruthyVal : Option (Option Bool) → Bool
  | some (some true) => true
  | _ => false

/-- JS truthiness of a present `boolean | null` value (for
`Object.values(...).filter(Boolean)`). -/
def jsTruthyB (v : Option Bool) : Bool := v == some true

/-- Truthiness of `habit.completed[formatDate(date, 'yyyy-MM-dd')]`. -/
def completedTruthy (habit : Habit) (date : Int) : Bool :=
  jsTruthyVal (jsGet habit.completed (formatDateYMD date))

/-- `isHabitScheduledOnDay` of `App.tsx` (the spec's `isDue`).  The
`switch` is first-match on `frequencyType`; note the `Repeats` branch
subtracts from the RAW creation timestamp `new Date(habit.id)` (no
midnight normalization). -/
def isHabitScheduledOnDay (habit : Habit) (date : Int) : Bool :=
  if habit.frequencyType = "Everyday" then true
  else if habit.frequencyType = "Anytime" then true
  else if habit.frequencyType = "Some days of the week" then
    habit.selectedDays.contains (weekdayShort date)
  else if habit.frequencyType = "Numbers of times per period" then true
  else if habit.frequencyType = "Repeats" then
    if habit.repeatDays ≤ 1 then true
    else decide ((getDaysDifference habit.id date : Int) % habit.repeatDays = 0)
  else true

/-- The local `isHabitScheduledOnDay` defined inside
`calculateHabitStats` in `AddHabitModal.tsx`.  It differs from the
`App.tsx` version in that its `Repeats` branch measures from
`habitCreationDate` — the creation timestamp already normalized to
midnight — and it has no explicit `Anytime` case (covered by its
`default`). -/
def isHabitScheduledOnDayModal (habit : Habit) (date : Int) : Bool :=
  if habit.frequencyType = "Everyday" then true
  else if habit.frequencyType = "Some days of the week" then
    habit.selectedDays.contains (weekdayShort date)
  else if habit.frequencyType = "Numbers of times per period" then true
  else if habit.frequencyType = "Repeats" then
    if habit.repeatDays ≤ 1 then true
    else decide ((getDaysDifference (midnightOf habit.id) date : Int)
      % habit.repeatDays = 0)
  else true

/-- The loop body of `calculateStreak` in `App.tsx` (`HabitRow`): walk
backward one day at a time; `fuel` is the remaining iterations of
`for (let daysBack = 0; daysBack < 365; ...)`; the walk stops (returning
the accumulated count, here: adding nothing) when the walked-back day
precedes the creation midnight or when a scheduled day is not completed. -/
def streakWalk (habit : Habit) (creation : Int) : Nat → Int → Nat
  | 0, _ => 0
  | fuel + 1, currentDay =>
    if currentDay < creation then 0
    else if isHabitScheduledOnDay habit currentDay then
      if completedTruthy habit currentDay then
        streakWalk habit creation fuel (currentDay - msPerDay) + 1
      else 0
    else streakWalk habit creation fuel (currentDay - msPerDay)

/-- `calculateStreak` of `App.tsx`, parameterized by the reference
instant `asOf` (the source uses `new Date()`); both the start of the
walk and the creation date are normalized to midnight as in the source. -/
def calculateStreak (habit : Habit) (asOf : Int) : Nat :=
  streakWalk habit (midnightOf habit.id) 365 (midnightOf asOf)

/-- The days the backward walk of `calculateStreak` examines: at most
`fuel` days, starting at `d` and stepping back one day, stopping before
any day earlier than `creation`. -/
def backWindow (creation : Int) : Nat → Int → List Int
  | 0, _ => []
  | fuel + 1, d =>
    if d < creation then [] else d :: backWindow creation fuel (d - msPerDay)

/-- The spec's description of the streak (§4.2): among the examined
days (newest first), keep the due ones and count the leading streak of
completed ones — the count of consecutive due-and-completed days before
the first due-and-incomplete day. -/
def specBackStreak (habit : Habit) (asOf : Int) : Nat :=
  (((backWindow (midnightOf habit.id) 365 (midnightOf asOf)).filter
      (fun d => isHabitScheduledOnDay habit d)).takeWhile
      (fun d => completedTruthy habit d)).length

theorem streakWalk_eq_spec (habit : Habit) (creation : Int) :
    ∀ (fuel : Nat) (d : Int),
      streakWalk habit creation fuel d =
        (((backWindow creation fuel d).filter
            (fun x => isHabitScheduledOnDay habit x)).takeWhile
            (fun x => completedTruthy habit x)).length := by
  intro fuel
  induction fuel with
  | zero => intro d; simp [streakWalk, backWindow]
  | succ n ih =>
    intro d
    by_cases hlt : d < creation
    · simp [streakWalk, backWindow, hlt]
    · by_cases hsched : isHabitScheduledOnDay habit d
      · by_cases hcomp : completedTruthy habit d
        · simp [streakWalk, backWindow, hlt, hsched, hcomp, List.takeWhile_cons, ih]
        · simp [streakWalk, backWindow, hlt, hsched, hcomp, List.takeWhile_cons]
      · simp [streakWalk, backWindow, hlt, hsched, ih]

theorem streakWalk_le_fuel (habit : Habit) (creation : Int) :
    ∀ (fuel : Nat) (d : Int), streakWalk habit creation fuel d ≤ fuel := by
  intro fuel
  induction fuel with
  | zero => intro d; simp [streakWalk]
  | succ n ih =>
    intro d
    by_cases hlt : d < creation
    · simp [streakWalk, hlt]
    · by_cases hsched : isHabitScheduledOnDay habit d
      · by_cases hcomp : completedTruthy habit d
        · simpa [streakWalk, hlt, hsched, hcomp] using
            Nat.succ_le_succ (ih (d - msPerDay))
        · simp [streakWalk, hlt, hsched, hcomp]
      · exact le_trans (by simpa [streakWalk, hlt, hsched] using ih (d - msPerDay))
          (Nat.le_succ n)

theorem backWindow_length_le (creation : Int) :
    ∀ (fuel : Nat) (d : Int), (backWindow creation fuel d).length ≤ fuel := by
  intro fuel
  induction fuel with
  | zero => intro d; simp [backWindow]
  | succ n ih =>
    intro d
    by_cases hlt : d < creation
    · simp [backWindow, hlt]
    · simpa [backWindow, hlt] using Nat.succ_le_succ (ih (d - msPerDay))

theorem backWindow_all_ge (creation : Int) :
    ∀ (fuel : Nat) (d : Int),
      (backWindow creation fuel d).all (fun x => decide (creation ≤ x)) = true := by
  intro fuel
  induction fuel with
  | zero => intro d; simp [backWindow]
  | succ n ih =>
    intro d
    by_cases hlt : d < creation
    · simp [backWindow, hlt]
    · simp [backWindow, hlt, ih (d - msPerDay), not_lt.mp hlt]

/-- A habit due only on Mondays and Wednesdays, created Monday
1970-01-05; completed every Monday and Wednesday for three weeks. -/
def mwHabit : Habit :=
  { id := 4 * msPerDay
    name := "mw"
    description := ""
    color := "blue"
    type := "Habit"
    categories := []
    frequencyType := "Some days of the week"
    selectedDays := ["Mon", "Wed"]
    timesPerPeriod := 1
    periodUnit := "Week"
    repeatDays := 1
    completed :=
      [("1970-01-05", some true), ("1970-01-07", some true),
       ("1970-01-12", some true), ("1970-01-14", some true),
       ("1970-01-19", some true), ("1970-01-21", some true)]
    order := 0 }

/-- The due rule the spec's words describe for `Repeats` (§4.1, claim
C1): both the queried date and the creation timestamp normalized to
midnight before the millisecond subtraction. -/
def repeatsDueSpecNormalized (habit : Habit) (date : Int) : Bool :=
  if habit.repeatDays ≤ 1 then true
  else decide
    ((getDaysDifference (midnightOf habit.id) (midnightOf date) : Int)
      % habit.repeatDays = 0)

/-- A `Repeats` habit created at noon (1970-01-01T12:00Z), cycle 3. -/
def noonRepeatsHabit : Habit :=
  { id := 43200000
    name := "r3"
    description := ""
    color := "red"
    type := "Habit"
    categories := []
    frequencyType := "Repeats"
    selectedDays := []
    timesPerPeriod := 1
    periodUnit := "Week"
    repeatDays := 3
    completed := []
    order := 0 }

/-- C1 (counterexample): the code does NOT normalize the dates to
midnight before subtracting.  For a `Repeats` habit created at noon of
day 0 with `repeatDays = 3`, queried at midnight of day 1, the code's
difference is `floor(12h / 24h) = 0` (due), while the claim's
normalized difference is 1 day (not due). -/
theorem claim_C1_counterexample :
    isHabitScheduledOnDay noonRepeatsHabit msPerDay = true ∧
      repeatsDueSpecNormalized noonRepeatsHabit msPerDay = false := by
  decide

/-- C1 (amended): for `Repeats` habits, if `repeatDays ≤ 1` the habit
is due every day; otherwise it is due iff
`floor(|date − habit.id| / 1 day) mod repeatDays = 0`, computed on the
RAW millisecond timestamps (neither date normalized to midnight).  In
particular dates exactly 0, 3, 6 days (in milliseconds) after the
creation instant are due and 1, 2 days after are not (see the witness). -/
theorem claim_C1_repeats_due_rule (habit : Habit) (date : Int)
    (hft : habit.frequencyType = "Repeats") :
    (habit.repeatDays ≤ 1 → isHabitScheduledOnDay habit date = true) ∧
      (2 ≤ habit.repeatDays →
        (isHabitScheduledOnDay habit date = true ↔
          (getDaysDifference habit.id date : Int) % habit.repeatDays = 0)) := by
  constructor
  · intro hle
    simp [isHabitScheduledOnDay, hft, hle]
  · intro h2
    have hnot : ¬ habit.repeatDays ≤ 1 := by omega
    simp [isHabitScheduledOnDay, hft, hnot]

/-- C1 (witness): the amended rule applied to a concrete `Repeats`
habit with `repeatDays = 3`: 3 days after creation is due, 1 day after
is not. -/
theorem claim_C1_witness :
    isHabitScheduledOnDay noonRepeatsHabit (noonRepeatsHabit.id + 3 * msPerDay)
        = true ∧
      isHabitScheduledOnDay noonRepeatsHabit (noonRepeatsHabit.id + msPerDay)
        = false := by
  constructor
  · exact ((claim_C1_repeats_due_rule noonRepeatsHabit
      (noonRepeatsHabit.id + 3 * msPerDay) rfl).2 (by decide)).mpr (by decide)
  · have h := (claim_C1_repeats_due_rule noonRepeatsHabit
      (noonRepeatsHabit.id + msPerDay) rfl).2 (by decide)
    have : ¬ isHabitScheduledOnDay noonRepeatsHabit
        (noonRepeatsHabit.id + msPerDay) = true := by
      intro htrue
      exact absurd (h.mp htrue) (by decide)
    simpa using this

/-- C2: `calculateStreak` returns exactly the count of consecutive
due-and-completed days before the first due-and-incomplete day,
scanning backward from `asOf` with non-due days skipped (`specBackStreak`
is that description: filter the examined days to the due ones, count the
leading completed run — in particular it is 0 when the first due day
examined is incomplete).  And for a Mon/Wed-only habit completed every
Mon and Wed for three weeks, the streak at the third Wednesday is 6. -/
theorem claim_C2_current_streak :
    (∀ (habit : Habit) (asOf : Int),
        calculateStreak habit asOf = specBackStreak habit asOf) ∧
      calculateStreak mwHabit (20 * msPerDay) = 6 := by
  constructor
  · intro habit asOf
    exact streakWalk_eq_spec habit (midnightOf habit.id) 365 (midnightOf asOf)
  · decide

/-- C3: the backward walk of `calculateStreak` examines at most 365
days (`backWindow` is the list of days it examines), never examines a
day strictly before the creation midnight, and the result — a total,
terminating function by construction — is at most 365. -/
theorem claim_C3_streak_bounded (habit : Habit) (asOf : Int) :
    calculateStreak habit asOf ≤ 365 ∧
      (backWindow (midnightOf habit.id) 365 (midnightOf asOf)).length ≤ 365 ∧
      (backWindow (midnightOf habit.id) 365 (midnightOf asOf)).all
        (fun x => decide (midnightOf habit.id ≤ x)) = true :=
  ⟨streakWalk_le_fuel habit (midnightOf habit.id) 365 (midnightOf asOf),
    backWindow_length_le (midnightOf habit.id) 365 (midnightOf asOf),
    backWindow_all_ge (midnightOf habit.id) 365 (midnightOf asOf)⟩

/-- C6: for `Some days of the week`, due iff the date's short English
weekday name is in `selectedDays`; with `selectedDays = ["Mon","Wed"]`
due exactly on Mondays and Wednesdays. -/
theorem claim_C6_weekday_rule (habit : Habit) (date : Int)
    (hft : habit.frequencyType = "Some days of the week") :
    (isHabitScheduledOnDay habit date =
        habit.selectedDays.contains (weekdayShort date)) ∧
      (habit.selectedDays = ["Mon", "Wed"] →
        (isHabitScheduledOnDay habit date = true ↔
          weekdayShort date = "Mon" ∨ weekdayShort date = "Wed")) := by
  constructor
  · simp [isHabitScheduledOnDay, hft]
  · intro hsel
    simp [isHabitScheduledOnDay, hft, hsel, List.contains_cons]

/-- C6 (witness): the Mon/Wed habit is due on Monday 1970-01-05 and,
contrapositively via the rule, not on Thursday 1970-01-01. -/
theorem claim_C6_witness :
    isHabitScheduledOnDay mwHabit (4 * msPerDay) = true ∧
      isHabitScheduledOnDay mwHabit 0 = false := by
  constructor
  · exact ((claim_C6_weekday_rule mwHabit (4 * msPerDay) rfl).2 rfl).mpr (by decide)
  · have h := (claim_C6_weekday_rule mwHabit 0 rfl).2 rfl
    have : ¬ isHabitScheduledOnDay mwHabit 0 = true := by
      intro htrue
      rcases h.mp htrue with hmon | hwed
      · exact absurd hmon (by decide)
      · exact absurd hwed (by decide)
    simpa using this

/-- C7: every `frequencyType` other than `Some days of the week` and
`Repeats` — which includes `Everyday`, `Anytime`,
`Numbers of times per period`, and any unrecognized value — makes the
habit due on every date (the `switch` returns `true` in the explicit
cases and in the fail-open `default`). -/
theorem claim_C7_always_due (habit : Habit) (date : Int)
    (hft : habit.frequencyType ≠ "Some days of the week" ∧
      habit.frequencyType ≠ "Repeats") :
    isHabitScheduledOnDay habit date = true := by
  unfold isHabitScheduledOnDay
  rcases hft with ⟨h1, h2⟩
  by_cases he : habit.frequencyType = "Everyday" <;>
    by_cases ha : habit.frequencyType = "Anytime" <;>
      by_cases hn : habit.frequencyType = "Numbers of times per period" <;>
        simp [he, ha, hn, h1, h2]

/-- C7 (witness): a habit with an unrecognized `frequencyType` is due. -/
theorem claim_C7_witness :
    isHabitScheduledOnDay { noonRepeatsHabit with frequencyType := "Whenever" }
      0 = true :=
  claim_C7_always_due { noonRepeatsHabit with frequencyType := "Whenever" } 0
    (by constructor <;> decide)

/-- C9 (counterexample): the two schedule evaluators disagree.  For the
`Repeats` habit created at noon of day 0 with cycle 3, at midnight of
day 1 the `App.tsx` evaluator (raw creation timestamp) says due while
the modal's copy (creation normalized to midnight) says not due. -/
theorem claim_C9_counterexample :
    isHabitScheduledOnDay noonRepeatsHabit msPerDay = true ∧
      isHabitScheduledOnDayModal noonRepeatsHabit msPerDay = false := by
  decide

/-- C9 (amended): the two evaluators agree for every habit and date
except possibly for `Repeats` habits with `repeatDays ≥ 2` whose
creation timestamp is not exactly at midnight: they agree whenever the
frequency type is not `Repeats`, or `repeatDays ≤ 1`, or
`midnightOf habit.id = habit.id` (in particular `Anytime` habits,
which the modal handles only via its default branch, always agree). -/
theorem claim_C9_evaluators_agree (habit : Habit) (date : Int)
    (h : habit.frequencyType ≠ "Repeats" ∨ habit.repeatDays ≤ 1 ∨
      midnightOf habit.id = habit.id) :
    isHabitScheduledOnDay habit date = isHabitScheduledOnDayModal habit date := by
  by_cases hr : habit.frequencyType = "Repeats"
  · rcases h with hnot | hle | hmid
    · exact absurd hr hnot
    · simp [isHabitScheduledOnDay, isHabitScheduledOnDayModal, hr, hle]
    · simp [isHabitScheduledOnDay, isHabitScheduledOnDayModal, hr, hmid]
  · unfold isHabitScheduledOnDay isHabitScheduledOnDayModal
    by_cases he : habit.frequencyType = "Everyday" <;>
      by_cases ha : habit.frequencyType = "Anytime" <;>
        by_cases hs : habit.frequencyType = "Some days of the week" <;>
          by_cases hn : habit.frequencyType = "Numbers of times per period" <;>
            simp [he, ha, hs, hn, hr]

/-- `scheduledHabits.length` of `MonthView` in `App.tsx`: the habits
due on a date. -/
def scheduledHabitsCount (habits : List Habit) (date : Int) : Nat :=
  (habits.filter (fun h => isHabitScheduledOnDay h date)).length

/-- `completedHabits.length` of `MonthView`: habits that are both due
on the date and whose completion entry for it is truthy. -/
def completedHabitsCount (habits : List Habit) (date : Int) : Nat :=
  (habits.filter
    (fun h => isHabitScheduledOnDay h date && completedTruthy h date)).length

/-- `completionRate` of `MonthView`: `completed / scheduled` guarded by
`scheduledHabits.length > 0`, else `0` (the guard is what prevents the
JS `0 / 0 = NaN`). -/
def completionRate (habits : List Habit) (date : Int) : ℚ :=
  if 0 < scheduledHabitsCount habits date then
    (completedHabitsCount habits date : ℚ) / (scheduledHabitsCount habits date : ℚ)
  else 0

/-- The spec's wording of the numerator: among the habits due on the
date, those whose completion entry is `true`. -/
def specCompletedCount (habits : List Habit) (date : Int) : Nat :=
  ((habits.filter (fun h => isHabitScheduledOnDay h date)).filter
    (fun h => completedTruthy h date)).length

theorem completedCount_eq_spec (habits : List Habit) (date : Int) :
    completedHabitsCount habits date = specCompletedCount habits date := by
  unfold completedHabitsCount specCompletedCount
  rw [List.filter_filter]
  congr 1
  exact List.filter_congr (fun a _ => by rw [Bool.and_comm])

/-- C4: the per-day completion ratio is `completedCount / scheduledCount`
with `completedCount` counting, among the habits due on the date, those
whose entry for the date is `true`; when no habit is due the ratio is
exactly `0` (total rational arithmetic in the model; in the source the
guard avoids `NaN`). -/
theorem claim_C4_completion_ratio (habits : List Habit) (date : Int) :
    completionRate habits date =
      (if scheduledHabitsCount habits date = 0 then 0
        else (specCompletedCount habits date : ℚ) /
          (scheduledHabitsCount habits date : ℚ)) := by
  unfold completionRate
  rcases Nat.eq_zero_or_pos (scheduledHabitsCount habits date) with hz | hp
  · simp [hz]
  · rw [completedCount_eq_spec]
    simp [Nat.pos_iff_ne_zero.mp hp, hp]

/-- Number of iterations of the `while (currentDay <= today)` loop of
`calculateHabitStats` when it starts at `creation` (both midnights). -/
def statsDayCount (creation today : Int) : Nat :=
  if creation ≤ today then ((today - creation) / msPerDay).toNat + 1 else 0

/-- The days `calculateHabitStats` visits: `creation`, `creation + 1d`,
…, up to `today` inclusive. -/
def statsDays (creation today : Int) : List Int :=
  (List.range (statsDayCount creation today)).map
    (fun k => creation + (k : Int) * msPerDay)

/-- One iteration of the highest-streak loop of `calculateHabitStats`:
state is `(currentStreak, highestStreak)`; a due-and-completed day
increments the run and updates the maximum, a due-but-incomplete day
resets the run, a non-due day changes nothing. -/
def modalStatsStep (habit : Habit) (st : Nat × Nat) (d : Int) : Nat × Nat :=
  if isHabitScheduledOnDayModal habit d then
    if completedTruthy habit d then (st.1 + 1, max st.2 (st.1 + 1))
    else (0, st.2)
  else st

/-- `calculateHabitStats` of `AddHabitModal.tsx`, parameterized by the
reference instant (the source uses `new Date()`); returns
`(totalCompletions, highestStreak)`.  (The source's
`if (!habit || !habit.completed) return {0, 0}` guard is for absent
inputs, which the `Habit` record of the model cannot represent.) -/
def calculateHabitStats (habit : Habit) (todayRaw : Int) : Nat × Nat :=
  let totalCompletions := ((habit.completed.map Prod.snd).filter jsTruthyB).length
  let today := midnightOf todayRaw
  let creation := midnightOf habit.id
  (totalCompletions,
    ((statsDays creation today).foldl (modalStatsStep habit) (0, 0)).2)

theorem totalCompletions_spec (m : List (String × Option Bool))
    (hnd : (m.map Prod.fst).Nodup) :
    ((m.map Prod.snd).filter jsTruthyB).length =
      ((m.map Prod.fst).filter (fun k => jsTruthyVal (jsGet m k))).length := by
  induction m with
  | nil => simp
  | cons p rest ih =>
    obtain ⟨k, v⟩ := p
    simp only [List.map_cons, List.nodup_cons] at hnd
    obtain ⟨hk, hrest⟩ := hnd
    have hhead : jsGet ((k, v) :: rest) k = some v := by
      simp [jsGet, List.find?_cons]
    have htail : (rest.map Prod.fst).filter
        (fun key => jsTruthyVal (jsGet ((k, v) :: rest) key)) =
        (rest.map Prod.fst).filter (fun key => jsTruthyVal (jsGet rest key)) := by
      refine List.filter_congr (fun key hkey => ?_)
      have hne : (k == key) = false := by
        simp only [beq_eq_false_iff_ne]
        intro hkk
        exact hk (hkk ▸ hkey)
      simp [jsGet, List.find?_cons, hne]
    have hval : jsTruthyVal (some v) = jsTruthyB v := by
      rcases v with _ | b
      · rfl
      · cases b <;> rfl
    simp only [List.map_cons, List.filter_cons, hhead, htail, hval]
    cases hb : jsTruthyB v <;> simp [ih hrest]

/-- C8: `totalCompletions` is the number of date keys of
`habit.completed` whose stored value is exactly `true` (`false` and
`null` entries do not count), and it never consults the schedule: it is
invariant under changing `frequencyType`. -/
theorem claim_C8_total_completions (habit : Habit) (todayRaw : Int)
    (hnd : (habit.completed.map Prod.fst).Nodup) :
    (calculateHabitStats habit todayRaw).1 =
      ((habit.completed.map Prod.fst).filter
        (fun k => jsTruthyVal (jsGet habit.completed k))).length ∧
      (∀ ft : String,
        (calculateHabitStats { habit with frequencyType := ft } todayRaw).1 =
          (calculateHabitStats habit todayRaw).1) :=
  ⟨totalCompletions_spec habit.completed hnd, fun _ => rfl⟩

/-- C8 (witness): the Mon/Wed habit has 6 entries mapped to `true`, so
6 total completions, unchanged when its frequency type changes. -/
theorem claim_C8_witness :
    ((mwHabit.completed.map Prod.fst).Nodup ∧
      (calculateHabitStats mwHabit 0).1 = 6) ∧
      (calculateHabitStats { mwHabit with frequencyType := "Everyday" } 0).1 =
        (calculateHabitStats mwHabit 0).1 := by
  refine ⟨⟨by decide, ?_⟩, ?_⟩
  · rw [(claim_C8_total_completions mwHabit 0 (by decide)).1]
    decide
  · exact (claim_C8_total_completions mwHabit 0 (by decide)).2 "Everyday"

/-- Reference recursion for the highest streak over a completion
sequence: `c` is the length of the current run of `true`s. -/
def maxRunAux : Nat → List Bool → Nat
  | c, [] => c
  | c, true :: xs => maxRunAux (c + 1) xs
  | c, false :: xs => max c (maxRunAux 0 xs)

/-- The spec's "maximum length over all runs": the largest `n` such
that `n` consecutive `true`s occur somewhere in the sequence. -/
def maxRunLength (l : List Bool) : Nat :=
  ((List.range (l.length + 1)).filter
    (fun n => decide ((List.replicate n true).IsInfix l))).foldr max 0

/-- The completion sequence `calculateHabitStats` scans: one Boolean
per due day from the creation midnight to the reference midnight. -/
def dueCompletionList (habit : Habit) (todayRaw : Int) : List Bool :=
  ((statsDays (midnightOf habit.id) (midnightOf todayRaw)).filter
    (fun d => isHabitScheduledOnDayModal habit d)).map
    (fun d => completedTruthy habit d)

theorem le_maxRunAux (l : List Bool) : ∀ c, c ≤ maxRunAux c l := by
  induction l with
  | nil => intro c; simp [maxRunAux]
  | cons x xs ih =>
    intro c
    cases x
    · simp only [maxRunAux]; omega
    · simp only [maxRunAux]; exact le_trans (Nat.le_succ c) (ih (c + 1))

theorem maxRunAux_mono (l : List Bool) :
    ∀ c c', c ≤ c' → maxRunAux c l ≤ maxRunAux c' l := by
  induction l with
  | nil => intro c c' h; simpa [maxRunAux] using h
  | cons x xs ih =>
    intro c c' h
    cases x
    · simp only [maxRunAux]; exact max_le_max h le_rfl
    · simp only [maxRunAux]; exact ih (c + 1) (c' + 1) (by omega)

theorem runPrefix_le_maxRunAux :
    ∀ (m : Nat) (l : List Bool) (c : Nat),
      (List.replicate m true) <+: l → c + m ≤ maxRunAux c l := by
  intro m
  induction m with
  | zero => intro l c _; simpa using le_maxRunAux l c
  | succ n ih =>
    intro l c h
    cases l with
    | nil => simp [List.replicate_succ] at h
    | cons x xs =>
      rw [List.replicate_succ, List.cons_prefix_cons] at h
      obtain ⟨hx, hpre⟩ := h
      subst hx
      simp only [maxRunAux]
      have := ih xs (c + 1) hpre
      omega

theorem subRun_le_maxRunAux :
    ∀ (l : List Bool) (c n : Nat),
      (List.replicate n true).IsInfix l → n ≤ maxRunAux c l := by
  intro l
  induction l with
  | nil =>
    intro c n h
    rw [List.infix_nil] at h
    have : n = 0 := by simpa using congrArg List.length h
    simp [this]
  | cons x xs ih =>
    intro c n h
    obtain ⟨s, t, hst⟩ := h
    cases s with
    | cons a s' =>
      have hx : s' ++ (List.replicate n true ++ t) = xs := by
        simpa using congrArg List.tail hst
      have hinf : (List.replicate n true).IsInfix xs :=
        ⟨s', t, by rw [List.append_assoc]; exact hx⟩
      cases x
      · simp only [maxRunAux]
        exact le_trans (ih 0 n hinf) (le_max_right _ _)
      · simp only [maxRunAux]
        exact le_trans (ih 0 n hinf) (maxRunAux_mono xs 0 (c + 1) (by omega))
    | nil =>
      simp only [List.nil_append] at hst
      have hpre : (List.replicate n true) <+: x :: xs := ⟨t, hst⟩
      cases n with
      | zero => exact Nat.zero_le _
      | succ m =>
        rw [List.replicate_succ, List.cons_prefix_cons] at hpre
        obtain ⟨hx, hpre'⟩ := hpre
        cases x
        · exact absurd hx (by simp)
        · simp only [maxRunAux]
          have := runPrefix_le_maxRunAux m xs (c + 1) hpre'
          omega

theorem takeWhile_id_replicate (l : List Bool) :
    l.takeWhile (fun b => b) =
      List.replicate (l.takeWhile (fun b => b)).length true := by
  induction l with
  | nil => simp
  | cons x xs ih =>
    cases x
    · rw [List.takeWhile_cons_of_neg (by simp)]
      simp
    · rw [List.takeWhile_cons_of_pos (by simp), List.length_cons,
        List.replicate_succ]
      exact congrArg (true :: ·) ih

theorem maxRunAux_eq_lead_max (l : List Bool) :
    ∀ c, maxRunAux c l =
      max (c + (l.takeWhile (fun b => b)).length)
        (maxRunAux 0 (l.dropWhile (fun b => b))) := by
  induction l with
  | nil => intro c; simp [maxRunAux]
  | cons x xs ih =>
    intro c
    cases x
    · rw [List.takeWhile_cons_of_neg (by simp),
        List.dropWhile_cons_of_neg (by simp)]
      have h1 : maxRunAux c (false :: xs) = max c (maxRunAux 0 xs) := rfl
      have h2 : maxRunAux 0 (false :: xs) = max 0 (maxRunAux 0 xs) := rfl
      rw [h1, h2]
      simp
    · rw [List.takeWhile_cons_of_pos (by simp),
        List.dropWhile_cons_of_pos (by simp)]
      have h1 : maxRunAux c (true :: xs) = maxRunAux (c + 1) xs := rfl
      have hlen : c + (true :: xs.takeWhile (fun b => b)).length =
          (c + 1) + (xs.takeWhile (fun b => b)).length := by
        rw [List.length_cons]
        omega
      rw [h1, ih (c + 1), hlen]

theorem replicate_true_infix_of_le {m n : Nat} (h : m ≤ n) :
    (List.replicate m true).IsInfix (List.replicate n true) := by
  refine ⟨[], List.replicate (n - m) true, ?_⟩
  rw [List.nil_append, ← List.replicate_add]
  congr 1
  omega

theorem maxRunAux_achievable (l : List Bool) :
    (List.replicate (maxRunAux 0 l) true).IsInfix l := by
  induction l with
  | nil => simp [maxRunAux]
  | cons x xs ih =>
    cases x
    · have : maxRunAux 0 (false :: xs) = maxRunAux 0 xs := by
        simp [maxRunAux]
      rw [this]
      exact ih.trans (List.infix_cons (List.infix_refl xs))
    · have hrw : maxRunAux 0 (true :: xs) = maxRunAux 1 xs := rfl
      rw [hrw, maxRunAux_eq_lead_max xs 1]
      rcases le_total (maxRunAux 0 (xs.dropWhile (fun b => b)))
          (1 + (xs.takeWhile (fun b => b)).length) with hle | hle
      · rw [max_eq_left hle]
        have hpre : (true :: xs.takeWhile (fun b => b)) <+: (true :: xs) := by
          rw [List.cons_prefix_cons]
          exact ⟨rfl, List.takeWhile_prefix _⟩
        have hrep : true :: xs.takeWhile (fun b => b) =
            List.replicate (1 + (xs.takeWhile (fun b => b)).length) true := by
          rw [List.replicate_add, ← takeWhile_id_replicate]
          rfl
        exact hrep ▸ hpre.isInfix
      · rw [max_eq_right hle]
        have hub : maxRunAux 0 (xs.dropWhile (fun b => b)) ≤ maxRunAux 0 xs := by
          rw [maxRunAux_eq_lead_max xs 0]
          omega
        have h1 : (List.replicate (maxRunAux 0 (xs.dropWhile (fun b => b)))
            true).IsInfix (List.replicate (maxRunAux 0 xs) true) :=
          replicate_true_infix_of_le hub
        exact (h1.trans ih).trans (List.infix_cons (List.infix_refl xs))

theorem foldr_max_le (L : List Nat) (m : Nat) (h : ∀ x ∈ L, x ≤ m) :
    L.foldr max 0 ≤ m := by
  induction L with
  | nil => simp
  | cons a L ih =>
    simp only [List.foldr_cons]
    have ha := h a (by simp)
    have hL := ih (fun x hx => h x (by simp [hx]))
    omega

theorem le_foldr_max (L : List Nat) (x : Nat) (h : x ∈ L) :
    x ≤ L.foldr max 0 := by
  induction L with
  | nil => simp at h
  | cons a L ih =>
    simp only [List.foldr_cons]
    rcases List.mem_cons.mp h with rfl | hx
    · omega
    · have := ih hx; omega

theorem maxRunLength_eq_maxRunAux (l : List Bool) :
    maxRunLength l = maxRunAux 0 l := by
  unfold maxRunLength
  apply le_antisymm
  · refine foldr_max_le _ _ (fun x hx => ?_)
    rw [List.mem_filter] at hx
    exact subRun_le_maxRunAux l 0 x (of_decide_eq_true hx.2)
  · refine le_foldr_max _ _ ?_
    rw [List.mem_filter]
    have hach := maxRunAux_achievable l
    refine ⟨List.mem_range.mpr ?_, decide_eq_true hach⟩
    have := hach.sublist.length_le
    simp only [List.length_replicate] at this
    omega

theorem foldl_modalStatsStep_filter (habit : Habit) :
    ∀ (days : List Int) (st : Nat × Nat),
      days.foldl (modalStatsStep habit) st =
        (days.filter (fun d => isHabitScheduledOnDayModal habit d)).foldl
          (modalStatsStep habit) st := by
  intro days
  induction days with
  | nil => intro st; simp
  | cons d ds ih =>
    intro st
    by_cases hd : isHabitScheduledOnDayModal habit d
    · simp [List.filter_cons, hd, List.foldl_cons, ih]
    · have hstep : modalStatsStep habit st d = st := by
        simp [modalStatsStep, hd]
      simp [List.filter_cons, hd, List.foldl_cons, hstep, ih]

/-- `modalStatsStep` on a list of due days only looks at completions. -/
def boolStep (st : Nat × Nat) (b : Bool) : Nat × Nat :=
  if b then (st.1 + 1, max st.2 (st.1 + 1)) else (0, st.2)

theorem foldl_modalStatsStep_due (habit : Habit) :
    ∀ (days : List Int) (st : Nat × Nat),
      (∀ d ∈ days, isHabitScheduledOnDayModal habit d = true) →
      days.foldl (modalStatsStep habit) st =
        (days.map (fun d => completedTruthy habit d)).foldl boolStep st := by
  intro days
  induction days with
  | nil => intro st _; simp
  | cons d ds ih =>
    intro st hall
    have hd := hall d (by simp)
    have hstep : modalStatsStep habit st d =
        boolStep st (completedTruthy habit d) := by
      simp [modalStatsStep, boolStep, hd]
    simp only [List.foldl_cons, List.map_cons, hstep]
    exact ih _ (fun x hx => hall x (by simp [hx]))

theorem foldl_boolStep_snd (l : List Bool) :
    ∀ c b, c ≤ b → (l.foldl boolStep (c, b)).2 = max b (maxRunAux c l) := by
  induction l with
  | nil => intro c b h; simp [maxRunAux]; omega
  | cons x xs ih =>
    intro c b h
    cases x
    · have hstep : boolStep (c, b) false = (0, b) := rfl
      simp only [List.foldl_cons, hstep, maxRunAux]
      rw [ih 0 b (by omega)]
      omega
    · have hstep : boolStep (c, b) true = (c + 1, max b (c + 1)) := rfl
      simp only [List.foldl_cons, hstep, maxRunAux]
      rw [ih (c + 1) (max b (c + 1)) (by omega)]
      have := le_maxRunAux xs (c + 1)
      omega

/-- The everyday habit of the 4-and-7 example: created at the epoch
midnight, completed on days 0–3 (a run of 4), not completed on day 4,
completed on days 5–11 (a run of 7). -/
def run47Habit : Habit :=
  { id := 0
    name := "r47"
    description := ""
    color := "green"
    type := "Habit"
    categories := []
    frequencyType := "Everyday"
    selectedDays := []
    timesPerPeriod := 1
    periodUnit := "Week"
    repeatDays := 1
    completed :=
      [("1970-01-01", some true), ("1970-01-02", some true),
       ("1970-01-03", some true), ("1970-01-04", some true),
       ("1970-01-06", some true), ("1970-01-07", some true),
       ("1970-01-08", some true), ("1970-01-09", some true),
       ("1970-01-10", some true), ("1970-01-11", some true),
       ("1970-01-12", some true)]
    order := 0 }

/-- C5: `highestStreak` is the maximum length over all runs of
consecutive due-and-completed days from the creation midnight to the
reference midnight (`maxRunLength` is literally "the largest number of
consecutive `true`s occurring in the due-day completion sequence"),
and on the 4-run/7-run history it returns 7. -/
theorem claim_C5_highest_streak :
    (∀ (habit : Habit) (todayRaw : Int),
        (calculateHabitStats habit todayRaw).2 =
          maxRunLength (dueCompletionList habit todayRaw)) ∧
      (calculateHabitStats run47Habit (11 * msPerDay)).2 = 7 := by
  constructor
  · intro habit todayRaw
    show ((statsDays (midnightOf habit.id) (midnightOf todayRaw)).foldl
        (modalStatsStep habit) (0, 0)).2 = _
    rw [foldl_modalStatsStep_filter habit _ (0, 0),
      foldl_modalStatsStep_due habit _ (0, 0)
        (fun d hd => (List.mem_filter.mp hd).2),
      foldl_boolStep_snd _ 0 0 le_rfl, maxRunLength_eq_maxRunAux]
    simp [dueCompletionList]
  · decide

/-- The tri-state cycle of `handleToggleHabit` in `App.tsx`: an entry
that is `null` or `undefined` becomes `true`, `true` becomes `false`,
and anything else (`false`) becomes `null`. -/
def cycleCompletion : Option (Option Bool) → Option Bool
  | none => some true
  | some none => some true
  | some (some true) => some false
  | some (some false) => none

/-- JS property write `m[key] = v` on a (spread-copied) record: an
existing key keeps its position and gets the new value, a new key is
appended. -/
def jsSet (m : List (String × Option Bool)) (k : String) (v : Option Bool) :
    List (String × Option Bool) :=
  if m.any (fun p => p.1 == k) then
    m.map (fun p => if p.1 = k then (k, v) else p)
  else m ++ [(k, v)]

/-- The `newCompleted` object `handleToggleHabit` builds for a habit:
the entry for `d` is cycled, all else copied. -/
def toggledCompleted (m : List (String × Option Bool)) (d : String) :
    List (String × Option Bool) :=
  jsSet m d (cycleCompletion (jsGet m d))

/-- `handleToggleHabit` of `App.tsx`: the state update applied to the
habit list when the circle for `(habitId, dateString)` is pressed. -/
def handleToggleHabit (habits : List Habit) (habitId : Int)
    (dateString : String) : List Habit :=
  habits.map (fun habit =>
    if habit.id = habitId then
      { habit with completed := toggledCompleted habit.completed dateString }
    else habit)

theorem find?_jsSet_mem (k : String) (v : Option Bool) :
    ∀ m : List (String × Option Bool),
      m.any (fun p => p.1 == k) = true →
      ((m.map (fun p => if p.1 = k then (k, v) else p)).find?
        (fun p => p.1 == k)) = some (k, v) := by
  intro m
  induction m with
  | nil => intro h; simp at h
  | cons p rest ih =>
    intro h
    rw [List.map_cons]
    by_cases hak : p.1 = k
    · rw [if_pos hak]
      exact List.find?_cons_of_pos _ (by simp)
    · rw [if_neg hak]
      have hf : (p.1 == k) = false := beq_eq_false_iff_ne.mpr hak
      rw [List.any_cons, hf, Bool.false_or] at h
      rw [List.find?_cons_of_neg _ (by simp [hf])]
      exact ih h

theorem find?_append_single (k : String) (v : Option Bool) :
    ∀ m : List (String × Option Bool),
      m.any (fun p => p.1 == k) = false →
      ((m ++ [(k, v)]).find? (fun p => p.1 == k)) = some (k, v) := by
  intro m
  induction m with
  | nil =>
    intro _
    rw [List.nil_append]
    exact List.find?_cons_of_pos _ (by simp)
  | cons p rest ih =>
    intro h
    rw [List.any_cons, Bool.or_eq_false_iff] at h
    rw [List.cons_append, List.find?_cons_of_neg _ (by simp [h.1])]
    exact ih h.2

theorem jsGet_jsSet_self (m : List (String × Option Bool)) (k : String)
    (v : Option Bool) : jsGet (jsSet m k v) k = some v := by
  unfold jsGet jsSet
  by_cases hany : m.any (fun p => p.1 == k) = true
  · rw [if_pos hany, find?_jsSet_mem k v m hany]
    rfl
  · have h' : m.any (fun p => p.1 == k) = false := by
      rw [← Bool.not_eq_true]
      exact hany
    rw [if_neg hany, find?_append_single k v m h']
    rfl

theorem find?_map_update_ne (k k' : String) (v : Option Bool) (hne : k' ≠ k) :
    ∀ m : List (String × Option Bool),
      ((m.map (fun p => if p.1 = k then (k, v) else p)).find?
        (fun p => p.1 == k')) = m.find? (fun p => p.1 == k') := by
  intro m
  induction m with
  | nil => rfl
  | cons p rest ih =>
    rw [List.map_cons]
    by_cases hak : p.1 = k
    · have h1 : ¬ ((k, v).1 == k') = true := by
        simp
        exact Ne.symm hne
      have h2 : ¬ (p.1 == k') = true := by
        simp [hak]
        exact Ne.symm hne
      rw [if_pos hak, List.find?_cons_of_neg _ (by exact h1),
        List.find?_cons_of_neg _ (by exact h2)]
      exact ih
    · rw [if_neg hak]
      by_cases hk' : (p.1 == k') = true
      · rw [List.find?_cons_of_pos _ (by exact hk'),
          List.find?_cons_of_pos _ (by exact hk')]
      · rw [List.find?_cons_of_neg _ (by exact hk'),
          List.find?_cons_of_neg _ (by exact hk')]
        exact ih

theorem find?_append_single_ne (k k' : String) (v : Option Bool)
    (hne : k' ≠ k) :
    ∀ m : List (String × Option Bool),
      ((m ++ [(k, v)]).find? (fun p => p.1 == k')) =
        m.find? (fun p => p.1 == k') := by
  intro m
  induction m with
  | nil =>
    have h1 : ¬ (((k, v) : String × Option Bool).1 == k') = true := by
      simp
      exact Ne.symm hne
    rw [List.nil_append, List.find?_cons_of_neg _ (by exact h1)]
  | cons p rest ih =>
    by_cases hk' : (p.1 == k') = true
    · rw [List.cons_append, List.find?_cons_of_pos _ (by exact hk'),
        List.find?_cons_of_pos _ (by exact hk')]
    · rw [List.cons_append, List.find?_cons_of_neg _ (by exact hk'),
        List.find?_cons_of_neg _ (by exact hk')]
      exact ih

theorem jsGet_jsSet_ne (m : List (String × Option Bool)) (k k' : String)
    (v : Option Bool) (hne : k' ≠ k) :
    jsGet (jsSet m k v) k' = jsGet m k' := by
  unfold jsGet jsSet
  by_cases hany : m.any (fun p => p.1 == k) = true
  · rw [if_pos hany, find?_map_update_ne k k' v hne m]
  · rw [if_neg hany, find?_append_single_ne k k' v hne m]

theorem jsGet_toggledCompleted_self (m : List (String × Option Bool))
    (d : String) :
    jsGet (toggledCompleted m d) d = some (cycleCompletion (jsGet m d)) :=
  jsGet_jsSet_self m d (cycleCompletion (jsGet m d))

theorem jsGet_toggledCompleted_ne (m : List (String × Option Bool))
    (d k : String) (h : k ≠ d) :
    jsGet (toggledCompleted m d) k = jsGet m k :=
  jsGet_jsSet_ne m d k (cycleCompletion (jsGet m d)) h

theorem toggledCompleted_three_unmarked (m : List (String × Option Bool))
    (d : String) (h : jsGet m d = none ∨ jsGet m d = some none) :
    jsGet (toggledCompleted (toggledCompleted (toggledCompleted m d) d) d) d =
      some none := by
  have h1 : jsGet (toggledCompleted m d) d = some (some true) := by
    rw [jsGet_toggledCompleted_self]
    rcases h with h | h <;> rw [h] <;> rfl
  have h2 : jsGet (toggledCompleted (toggledCompleted m d) d) d =
      some (some false) := by
    rw [jsGet_toggledCompleted_self, h1]
    rfl
  rw [jsGet_toggledCompleted_self, h2]
  rfl

/-- C10: toggling cycles the targeted entry unmarked → `true` →
`false` → `null`, so three toggles of an unmarked entry end at `null`
(again unmarked); each toggle leaves untargeted habits equal, changes a
targeted habit only in `completed` (the record-update form), and within
`completed` changes only the targeted date's entry. -/
theorem claim_C10_toggle_cycle (habits : List Habit) (habitId : Int)
    (d : String) :
    (handleToggleHabit habits habitId d).length = habits.length ∧
    (∀ (i : Nat) (h : Habit), habits[i]? = some h →
      (h.id ≠ habitId → (handleToggleHabit habits habitId d)[i]? = some h) ∧
      (h.id = habitId →
        (handleToggleHabit habits habitId d)[i]? =
          some { h with completed := toggledCompleted h.completed d } ∧
        (∀ k, k ≠ d →
          jsGet (toggledCompleted h.completed d) k = jsGet h.completed k) ∧
        jsGet (toggledCompleted h.completed d) d =
          some (cycleCompletion (jsGet h.completed d)))) ∧
    (∀ (i : Nat) (h : Habit), habits[i]? = some h → h.id = habitId →
      (jsGet h.completed d = none ∨ jsGet h.completed d = some none) →
      (handleToggleHabit (handleToggleHabit
          (handleToggleHabit habits habitId d) habitId d) habitId d)[i]? =
        some { h with completed := toggledCompleted (toggledCompleted
          (toggledCompleted h.completed d) d) d } ∧
      jsGet (toggledCompleted (toggledCompleted
          (toggledCompleted h.completed d) d) d) d = some none) := by
  refine ⟨by simp [handleToggleHabit], ?_, ?_⟩
  · intro i h hi
    constructor
    · intro hne
      simp [handleToggleHabit, List.getElem?_map, hi, hne]
    · intro heq
      refine ⟨by simp [handleToggleHabit, List.getElem?_map, hi, heq], ?_, ?_⟩
      · intro k hk
        exact jsGet_toggledCompleted_ne h.completed d k hk
      · exact jsGet_toggledCompleted_self h.completed d
  · intro i h hi heq hunm
    refine ⟨?_, toggledCompleted_three_unmarked h.completed d hunm⟩
    simp [handleToggleHabit, List.getElem?_map, hi, heq]

/-- Two small habits for exercising the toggle handler. -/
def togA : Habit :=
  { id := 1
    name := "a"
    description := ""
    color := "red"
    type := "Habit"
    categories := []
    frequencyType := "Everyday"
    selectedDays := []
    timesPerPeriod := 1
    periodUnit := "Week"
    repeatDays := 1
    completed := [("1970-01-02", some false)]
    order := 0 }

/-- Second habit of the toggle example (not targeted). -/
def togB : Habit :=
  { togA with id := 2, name := "b", order := 1 }

/-- C10 (witness): toggling habit 1 on 1970-01-01 (an absent entry)
leaves habit 2 untouched, and after three toggles the targeted entry is
`null` (unmarked again). -/
theorem claim_C10_witness :
    (handleToggleHabit [togA, togB] 1 "1970-01-01")[1]? = some togB ∧
      jsGet (toggledCompleted (toggledCompleted
        (toggledCompleted togA.completed "1970-01-01") "1970-01-01")
        "1970-01-01") "1970-01-01" = some none := by
  constructor
  · exact (((claim_C10_toggle_cycle [togA, togB] 1 "1970-01-01").2.1 1 togB
      (by decide)).1 (by decide))
  · exact ((claim_C10_toggle_cycle [togA, togB] 1 "1970-01-01").2.2 0 togA
      (by decide) (by decide) (Or.inl (by decide))).2

/-- C9 (witness): the agreement theorem applied to an `Anytime` habit. -/
theorem claim_C9_witness :
    isHabitScheduledOnDay { mwHabit with frequencyType := "Anytime" } 0 =
      isHabitScheduledOnDayModal { mwHabit with frequencyType := "Anytime" } 0 :=
  claim_C9_evaluators_agree { mwHabit with frequencyType := "Anytime" } 0
    (Or.inl (by decide))

end Mastery
